import Mathlib

/-!
Shallow embedding of the ECG disease-classifier backend
(`flask-backend/ecg_utils.py` and `flask-backend/app.py`).

Signals and segments are lists of rationals (the float model); a sample of a
raw segment is `Option ℚ`, where `none` stands for a non-finite float value
(NaN or an infinity) and `some q` for a finite value.  Machine floats are
modelled by exact rationals; `round(x, n)` is Python's round-half-to-even.

External capabilities (the scipy/WFDB peak detectors, the band-pass filter,
the CNN+LSTM classifier) are parameters of the embedded functions: the
repository code treats each of them as an opaque callable, and every claim
below is about what the repository code does with their results.
-/

/-- Python `round` of a rational to an integer: round half to even
(banker's rounding), exact on our rational model of floats. -/
def roundHalfEven (q : ℚ) : ℤ :=
  let f : ℤ := ⌊q⌋
  let r : ℚ := q - (f : ℚ)
  if r < 1/2 then f
  else if 1/2 < r then f + 1
  else if f % 2 = 0 then f else f + 1

/-- Python `round(q, n)`: round to `n` decimal places, half to even. -/
def round_to (n : Nat) (q : ℚ) : ℚ :=
  ((roundHalfEven (q * 10 ^ n) : ℤ) : ℚ) / 10 ^ n

/-- `np.mean` on the rational model; the empty list gives `0`
(matching the `if values else 0.0` guards in `app.py`). -/
def meanQ (l : List ℚ) : ℚ := l.sum / (l.length : ℚ)

/-- Population variance (`np.std` squared, `ddof = 0`): mean squared
deviation from the mean.  `np.std(seg) < 1e-6` is embedded as
`varianceQ seg < (1e-6)^2`, which is equivalent for nonnegative reals. -/
def varianceQ (l : List ℚ) : ℚ :=
  (l.map (fun x => (x - meanQ l) ^ 2)).sum / (l.length : ℚ)

/-- `np.max(np.abs(seg))` on the rational model (`0` for the empty list,
which never matters: an empty segment is already rejected by the earlier
checks of `validate_segments`). -/
def maxAbsQ (l : List ℚ) : ℚ := (l.map (fun x => |x|)).foldl max 0

/-- The finite values of a float list (`none` models NaN/inf). -/
def finiteVals (s : List (Option ℚ)) : List ℚ := s.filterMap id

/-- `int(0.2 * sampling_rate)` from `detect_r_peaks` (ecg_utils.py:155),
the 200 ms boundary margin.  At every integer rate the binary64 product
`0.2 * rate` floors to `rate / 5`; at the default rate 360 this is 72. -/
def boundary_margin (sampling_rate : Nat) : Nat := sampling_rate / 5

/-- `int(0.6 * sampling_rate)` from `detect_r_peaks_scipy` (ecg_utils.py:65),
the primary strategy's minimum peak separation; 216 at rate 360. -/
def min_distance_primary (sampling_rate : Nat) : Nat := 3 * sampling_rate / 5

/-- `int(0.4 * sampling_rate)` from `detect_r_peaks_scipy`
(ecg_utils.py:82,91), the relaxed strategies' minimum separation;
144 at rate 360. -/
def min_distance_relaxed (sampling_rate : Nat) : Nat := 2 * sampling_rate / 5

/-- The error taxonomy of the pipeline (spec section 7).  In the source
every failure is a raised `ValueError`; the constructor records which
stage raised it. -/
inductive EcgError where
  | FilterError
  | NoPeaksError
  | NoSegmentsError
  | NoValidSegmentsError
  | SchemaError
deriving DecidableEq

/-- Modelled from the spec and the scipy `filtfilt` contract: the filter of
`preprocess_ecg` (ecg_utils.py:38-39) is a 4th-order Butterworth band-pass,
whose `(b, a)` coefficient vectors have 9 entries each, so `filtfilt`
demands `len(x) > 3 * max(len(a), len(b)) = 27` and raises otherwise. -/
def butter_padlen : Nat := 27

/-- `preprocess_ecg` (ecg_utils.py:11-45).  DC removal and the zero-phase
band-pass are floating-point numerics of scipy; they are folded into the
parameter `filt`, an arbitrary length-preserving map (the only facts the
claims use are the failure condition and length preservation).  `filtfilt`
raises when the signal is no longer than its padding length. -/
def preprocess_ecg (filt : List ℚ → List ℚ) (ecg_signal : List ℚ) :
    Except EcgError (List ℚ) :=
  if ecg_signal.length ≤ butter_padlen then Except.error EcgError.FilterError
  else Except.ok (filt ecg_signal)

/-- The boundary filter of `detect_r_peaks` (ecg_utils.py:154-162): keep a
candidate peak `p` iff `margin <= p < len(signal) - margin`.  Candidate
indices from the detectors are nonnegative, so `Nat` indices are faithful;
`len - margin` is truncated subtraction, which agrees with the Python
integer comparison (if `margin > len` the condition is false either way). -/
def boundary_filtered (signal_length sampling_rate : Nat) (cands : List Nat) :
    List Nat :=
  cands.filter fun p =>
    decide (boundary_margin sampling_rate ≤ p ∧
            p < signal_length - boundary_margin sampling_rate)

/-- `detect_r_peaks` (ecg_utils.py:133-172).  The candidate set comes from
either the WFDB detector or the scipy strategy chain; both are external
capabilities, modelled by the parameter `detector` applied to the signal.
The repository code then applies only the boundary filter and raises
`ValueError` (`NoPeaksError`) when the filtered set is empty. -/
def detect_r_peaks (detector : List ℚ → List Nat) (ecg_signal : List ℚ)
    (sampling_rate : Nat) : Except EcgError (List Nat) :=
  let valid_peaks := boundary_filtered ecg_signal.length sampling_rate
    (detector ecg_signal)
  if valid_peaks.isEmpty then Except.error EcgError.NoPeaksError
  else Except.ok valid_peaks

/-- The loop body of `extract_heartbeat_segments` (ecg_utils.py:190-202)
for one peak: `start_idx = p - L//2` and `end_idx = p + L//2` as (possibly
negative) Python integers; the slice is kept only if
`start_idx >= 0 and end_idx < len(sig)` and has exactly length `L`.
`sig[start:end]` with `0 <= start <= end <= len` is
`(sig.drop start).take (end - start)`. -/
def extract_one {α : Type} (ecg_signal : List α) (segment_length : Nat)
    (p : Nat) : Option (List α) :=
  let half : ℤ := (segment_length / 2 : Nat)
  let start_idx : ℤ := (p : ℤ) - half
  let end_idx : ℤ := (p : ℤ) + half
  if 0 ≤ start_idx ∧ end_idx < (ecg_signal.length : ℤ) then
    let segment := (ecg_signal.drop start_idx.toNat).take
      (end_idx - start_idx).toNat
    if segment.length = segment_length then some segment else none
  else none

/-- `extract_heartbeat_segments` (ecg_utils.py:174-209): apply the window
cut to each peak in order, keeping the windows that pass the checks. -/
def extract_heartbeat_segments {α : Type} (ecg_signal : List α)
    (r_peaks : List Nat) (segment_length : Nat) : List (List α) :=
  r_peaks.filterMap (extract_one ecg_signal segment_length)

/-- The acceptance test of `validate_segments` (ecg_utils.py:224-246),
mirroring the `continue` chain: length check, NaN/inf check (`none` models
a non-finite float), flat-signal check (`np.std < 1e-6`, i.e. variance
below `(1e-6)^2`), amplitude check (`np.max(np.abs(seg)) > 100`). -/
def accept_segment (expected_length : Nat) (segment : List (Option ℚ)) :
    Bool :=
  if segment.length ≠ expected_length then false
  else if segment.any (fun v => v.isNone) then false
  else if varianceQ (finiteVals segment) < (1/1000000 : ℚ) ^ 2 then false
  else if (100 : ℚ) < maxAbsQ (finiteVals segment) then false
  else true

/-- `validate_segments` (ecg_utils.py:211-249): keep the accepted segments
in their original order. -/
def validate_segments (segments : List (List (Option ℚ)))
    (expected_length : Nat) : List (List (Option ℚ)) :=
  segments.filter (accept_segment expected_length)

/-- The validation step of `segment_ecg_beats` (ecg_utils.py:296-303):
raise (`NoValidSegmentsError`) only when every segment was rejected; a
rejection rate above one half is only a logged warning. -/
def validation_stage (segments : List (List (Option ℚ)))
    (expected_length : Nat) : Except EcgError (List (List (Option ℚ))) :=
  let validated := validate_segments segments expected_length
  if validated.isEmpty then Except.error EcgError.NoValidSegmentsError
  else Except.ok validated

/-- `scaler.transform` for a fitted `StandardScaler`
(ecg_utils.py:305-313): `output[i][j] = (input[i][j] - mean[j]) / std[j]`,
with the mean and scale vectors fixed at training time. -/
def scaler_transform (mean_vec scale_vec : List ℚ) (X : List (List ℚ)) :
    List (List ℚ) :=
  X.map fun row =>
    List.zipWith (fun x ms => (x - ms.1) / ms.2) row (mean_vec.zip scale_vec)

/-- `segment_ecg_beats` (ecg_utils.py:251-332): the full preprocessing
pipeline.  Conditioned samples are finite floats (the ingestion layer in
`app.py` strips NaN/inf), so raw segments enter the validator via `some`.
The final shape check (ecg_utils.py:320-322) is the `SchemaError` case. -/
def segment_ecg_beats (filt : List ℚ → List ℚ)
    (detector : List ℚ → List Nat) (mean_vec scale_vec : List ℚ)
    (continuous_ecg : List ℚ) (segment_length sampling_rate : Nat) :
    Except EcgError (List (List ℚ)) := do
  let filtered_signal ← preprocess_ecg filt continuous_ecg
  let r_peaks ← detect_r_peaks detector filtered_signal sampling_rate
  let raw_segments := extract_heartbeat_segments filtered_signal r_peaks
    segment_length
  if raw_segments.isEmpty then throw EcgError.NoSegmentsError
  let validated ← validation_stage (raw_segments.map (fun s => s.map some))
    segment_length
  let normalized := scaler_transform mean_vec scale_vec
    (validated.map finiteVals)
  if normalized.any (fun row => row.length ≠ segment_length) then
    throw EcgError.SchemaError
  pure normalized

/-- `np.argmax` over one probability row: index of the first occurrence of
the maximum.  The accumulator holds the best (index, value) so far; a later
value replaces it only when strictly greater, as in numpy. -/
def argmaxAux (best : Nat × ℚ) (i : Nat) : List ℚ → Nat × ℚ
  | [] => best
  | x :: xs =>
      if best.2 < x then argmaxAux (i, x) (i + 1) xs
      else argmaxAux best (i + 1) xs

/-- `np.argmax(row)` (app.py:229); `0` on the empty row (numpy raises
there, but the classifier contract gives every row `C ≥ 1` entries). -/
def np_argmax (row : List ℚ) : Nat :=
  match row with
  | [] => 0
  | x :: xs => (argmaxAux (0, x) 1 xs).1

/-- `np.max(row)` (app.py:230); `0` on the empty row. -/
def np_maxval (row : List ℚ) : ℚ :=
  match row with
  | [] => 0
  | x :: xs => xs.foldl max x

/-- The chunk start offsets `range(0, n, batch_size)` of the prediction
loop (app.py:226). -/
def batch_starts (n batch_size : Nat) : List Nat :=
  List.range' 0 ((n + batch_size - 1) / batch_size) batch_size

/-- The consecutive batches `X[i:i+batch_size]` taken by the prediction
loop (app.py:226-227). -/
def batch_chunks {α : Type} (batch_size : Nat) (l : List α) :
    List (List α) :=
  (batch_starts l.length batch_size).map fun i => (l.drop i).take batch_size

/-- `all_predictions` after the batch loop (app.py:223-229): per chunk, the
classifier (parameter `mdl`, one probability row per segment) is applied
and the row-wise argmax results are appended in order. -/
def all_predictions {α : Type} (mdl : α → List ℚ) (batch_size : Nat)
    (segs : List α) : List Nat :=
  ((batch_chunks batch_size segs).map
    (fun b => (b.map mdl).map np_argmax)).flatten

/-- `all_confidences` after the batch loop (app.py:224-230): the row-wise
maxima, appended chunk by chunk. -/
def all_confidences {α : Type} (mdl : α → List ℚ) (batch_size : Nat)
    (segs : List α) : List ℚ :=
  ((batch_chunks batch_size segs).map
    (fun b => (b.map mdl).map np_maxval)).flatten

/-- The key list of `Counter(segment_classes)` in its iteration order: a
Python dict iterates keys in insertion order, i.e. in order of each class's
first occurrence in the prediction sequence. -/
def firstOccsAux (seen : List Nat) : List Nat → List Nat
  | [] => []
  | c :: rest =>
      if c ∈ seen then firstOccsAux seen rest
      else c :: firstOccsAux (c :: seen) rest

/-- Classes in order of first occurrence (the `Counter` key order). -/
def firstOccs (l : List Nat) : List Nat := firstOccsAux [] l

/-- `Counter(segment_classes)` (app.py:236) as an association list in the
counter's iteration order. -/
def class_votes (segment_classes : List Nat) : List (Nat × Nat) :=
  (firstOccs segment_classes).map fun c => (c, segment_classes.count c)

/-- Python `max(d, key=d.get)` over the counter items: scan in iteration
order, replacing the best item only on a strictly greater value, so the
first key attaining the maximal count wins. -/
def pyMaxAux (best : Nat × Nat) : List (Nat × Nat) → Nat × Nat
  | [] => best
  | kv :: rest =>
      if best.2 < kv.2 then pyMaxAux kv rest else pyMaxAux best rest

/-- `max(class_votes, key=class_votes.get)` (app.py:237): the majority
class, `none` only for an empty vote set. -/
def pyMajority (votes : List (Nat × Nat)) : Option Nat :=
  match votes with
  | [] => none
  | kv :: rest => some (pyMaxAux kv rest).1

/-- The confidences of the segments voting for class `c` (app.py:241,249),
in segment order. -/
def confsOf (preds : List (Nat × ℚ)) (c : Nat) : List ℚ :=
  (preds.filter (fun p => decide (p.1 = c))).map fun p => p.2

/-- `majority_confidence` (app.py:240-242): the unrounded mean confidence
over the majority class's segments (`0` when there is no majority class,
i.e. on an empty prediction list, matching the `else 0.0` guard). -/
def majority_confidence (preds : List (Nat × ℚ)) : ℚ :=
  match pyMajority (class_votes (preds.map (fun p => p.1))) with
  | none => 0
  | some k => meanQ (confsOf preds k)

/-- `overall_confidence` as serialized in the response
(app.py:260): the majority mean rounded to 4 decimal places. -/
def overall_confidence (preds : List (Nat × ℚ)) : ℚ :=
  round_to 4 (majority_confidence preds)

/-- The per-class percentage (app.py:254):
`round(vote_count / total * 100, 2)`, `0` for an empty total. -/
def vote_percentage (vote_count total_segments : Nat) : ℚ :=
  if total_segments = 0 then 0
  else round_to 2 (((vote_count : ℚ) / (total_segments : ℚ)) * 100)

/-- `segment_distribution` (app.py:244-256) keyed by class index (the
label-map lookup is an external read-only bijection): per class with at
least one vote, `(class, count, percentage, avg confidence)` in counter
iteration order. -/
def segment_distribution (preds : List (Nat × ℚ)) :
    List (Nat × Nat × ℚ × ℚ) :=
  (class_votes (preds.map (fun p => p.1))).map fun cv =>
    (cv.1, cv.2, vote_percentage cv.2 preds.length,
     round_to 4 (meanQ (confsOf preds cv.1)))

/-! Helper lemmas -/

theorem except_bind_ok {ε α β : Type} (x : α) (f : α → Except ε β) :
    (Except.ok x >>= f) = f x := rfl

theorem except_bind_error {ε α β : Type} (e : ε) (f : α → Except ε β) :
    ((Except.error e : Except ε α) >>= f) = Except.error e := rfl

theorem zip_replicate_same {α β : Type} (a : α) (b : β) :
    ∀ n : Nat, (List.replicate n a).zip (List.replicate n b) =
      List.replicate n (a, b) := by
  intro n
  induction n with
  | zero => rfl
  | succ m ih => simp only [List.replicate_succ, List.zip_cons_cons, ih]

theorem zipWith_replicate_right {α β γ : Type} (f : α → β → γ) (c : β) :
    ∀ (row : List α) (n : Nat), row.length ≤ n →
      List.zipWith f row (List.replicate n c) = row.map (fun x => f x c) := by
  intro row
  induction row with
  | nil => intro n _; simp
  | cons x xs ih =>
      intro n h
      cases n with
      | zero => simp at h
      | succ m =>
          simp only [List.replicate_succ, List.zipWith_cons_cons, List.map_cons]
          rw [ih m (by simpa using h)]

theorem argmaxAux_snd (xs : List ℚ) : ∀ (b : Nat × ℚ) (i : Nat),
    (argmaxAux b i xs).2 = xs.foldl max b.2 := by
  induction xs with
  | nil => intro b i; rfl
  | cons x xs ih =>
      intro b i
      simp only [argmaxAux, List.foldl_cons]
      by_cases h : b.2 < x
      · rw [if_pos h, ih (i, x) (i + 1), max_eq_right (le_of_lt h)]
      · rw [if_neg h, ih b (i + 1), max_eq_left (le_of_not_lt h)]

theorem argmaxAux_get (row : List ℚ) : ∀ (xs : List ℚ) (b : Nat × ℚ) (i : Nat),
    row[b.1]? = some b.2 → (∀ j : Nat, row[i + j]? = xs[j]?) →
    row[(argmaxAux b i xs).1]? = some (argmaxAux b i xs).2 := by
  intro xs
  induction xs with
  | nil => intro b i hb _; exact hb
  | cons x xs ih =>
      intro b i hb hshift
      simp only [argmaxAux]
      by_cases h : b.2 < x
      · rw [if_pos h]
        refine ih (i, x) (i + 1) ?_ ?_
        · have := hshift 0
          simpa using this
        · intro j
          have := hshift (j + 1)
          rw [show i + (j + 1) = i + 1 + j by omega] at this
          simpa using this
      · rw [if_neg h]
        refine ih b (i + 1) hb ?_
        intro j
        have := hshift (j + 1)
        rw [show i + (j + 1) = i + 1 + j by omega] at this
        simpa using this

theorem range'_shift (step : Nat) : ∀ (k s : Nat),
    List.range' s k step = (List.range' 0 k step).map (fun x => s + x) := by
  intro k
  induction k with
  | zero => intro s; rfl
  | succ m ih =>
      intro s
      rw [List.range'_succ, List.range'_succ]
      simp only [List.map_cons, Nat.add_zero]
      refine congrArg (List.cons s) ?_
      rw [ih (s + step), ih (0 + step), List.map_map]
      simp [Function.comp, Nat.add_assoc, Nat.zero_add]

theorem batch_chunks_cons {α : Type} (bs : Nat) (hbs : 0 < bs) (l : List α)
    (hl : l ≠ []) :
    batch_chunks bs l = l.take bs :: batch_chunks bs (l.drop bs) := by
  unfold batch_chunks batch_starts
  have hN : 0 < l.length := List.length_pos.mpr hl
  have hceil : (l.length + bs - 1) / bs =
      (((l.drop bs).length + bs - 1) / bs) + 1 := by
    rw [List.length_drop]
    rcases le_or_lt l.length bs with h | h
    · have h1 : l.length - bs = 0 := Nat.sub_eq_zero_of_le h
      rw [h1]
      have hA : (l.length + bs - 1) / bs = 1 := by
        refine Nat.div_eq_of_lt_le (by omega) (by omega)
      have hB : (0 + bs - 1) / bs = 0 := Nat.div_eq_of_lt (by omega)
      omega
    · have hrw : l.length + bs - 1 = (l.length - bs + bs - 1) + bs := by omega
      rw [hrw, Nat.add_div_right _ hbs]
  rw [hceil, List.range'_succ]
  simp only [List.map_cons, List.drop_zero]
  refine congrArg (List.cons (l.take bs)) ?_
  rw [show 0 + bs = bs by omega, range'_shift bs _ bs, List.map_map]
  refine List.map_congr_left ?_
  intro x _
  simp only [Function.comp]
  rw [← List.drop_drop]

theorem batch_chunks_nil {α : Type} (bs : Nat) (hbs : 0 < bs) :
    batch_chunks bs ([] : List α) = [] := by
  simp [batch_chunks, batch_starts, Nat.div_eq_of_lt (show bs - 1 < bs by omega)]

theorem batch_chunks_flatten {α : Type} (bs : Nat) (hbs : 0 < bs) :
    ∀ (l : List α), (batch_chunks bs l).flatten = l := by
  have main : ∀ (n : Nat) (l : List α), l.length ≤ n →
      (batch_chunks bs l).flatten = l := by
    intro n
    induction n with
    | zero =>
        intro l hl
        have hnil : l = [] := List.length_eq_zero.mp (Nat.le_zero.mp hl)
        subst hnil
        rw [batch_chunks_nil bs hbs]
        rfl
    | succ m ih =>
        intro l hl
        cases hc : l with
        | nil => rw [batch_chunks_nil bs hbs]; rfl
        | cons x xs =>
            rw [← hc, batch_chunks_cons bs hbs l (by simp [hc])]
            rw [List.flatten_cons]
            have hdroplen : (l.drop bs).length ≤ m := by
              rw [List.length_drop]
              have hpos : 0 < l.length := by simp [hc]
              omega
            rw [ih (l.drop bs) hdroplen]
            exact List.take_append_drop bs l
  intro l
  exact main l.length l le_rfl

theorem batch_chunks_lengths {α : Type} (bs : Nat) (hbs : 0 < bs) :
    ∀ (l : List α), (batch_chunks bs l).map List.length =
      List.replicate (l.length / bs) bs ++
        (if l.length % bs = 0 then [] else [l.length % bs]) := by
  have main : ∀ (n : Nat) (l : List α), l.length ≤ n →
      (batch_chunks bs l).map List.length =
        List.replicate (l.length / bs) bs ++
          (if l.length % bs = 0 then [] else [l.length % bs]) := by
    intro n
    induction n with
    | zero =>
        intro l hl
        have hnil : l = [] := List.length_eq_zero.mp (Nat.le_zero.mp hl)
        subst hnil
        rw [batch_chunks_nil bs hbs]
        simp [Nat.zero_div]
    | succ m ih =>
        intro l hl
        cases hc : l with
        | nil => rw [batch_chunks_nil bs hbs]; simp
        | cons x xs =>
            rw [← hc]
            have hpos : 0 < l.length := by simp [hc]
            rw [batch_chunks_cons bs hbs l (by simp [hc])]
            simp only [List.map_cons, List.length_take]
            have hdroplen : (l.drop bs).length ≤ m := by
              rw [List.length_drop]
              omega
            rw [ih (l.drop bs) hdroplen]
            rw [List.length_drop]
            rcases Nat.lt_or_ge l.length bs with h | h
            · have h0 : l.length - bs = 0 := by omega
              have hdiv : l.length / bs = 0 := Nat.div_eq_of_lt h
              have hmod : l.length % bs = l.length := Nat.mod_eq_of_lt h
              have hne : ¬(l.length = 0) := by omega
              rw [h0, hdiv, hmod]
              simp [min_eq_right (le_of_lt h), hne, Nat.zero_div, Nat.zero_mod]
            · have hrw : l.length = (l.length - bs) + bs := by omega
              have hdiv : l.length / bs = (l.length - bs) / bs + 1 := by
                conv_lhs => rw [hrw]
                rw [Nat.add_div_right _ hbs]
              have hmod : l.length % bs = (l.length - bs) % bs := by
                conv_lhs => rw [hrw]
                rw [Nat.add_mod_right]
              rw [hdiv, hmod, min_eq_left h, List.replicate_succ]
              simp [List.cons_append]
  intro l
  exact main l.length l le_rfl

/-! Claim theorems -/

/-- C9: Normalizer identity law — if the scaling transform has mean 0 and
standard deviation 1 at every position, `scaler.transform` returns the
input batch unchanged. -/
theorem c9_normalizer_identity (L : Nat) (X : List (List ℚ))
    (h : ∀ row ∈ X, row.length = L) :
    scaler_transform (List.replicate L 0) (List.replicate L 1) X = X := by
  unfold scaler_transform
  rw [zip_replicate_same (0:ℚ) (1:ℚ) L]
  have hrow : ∀ row ∈ X,
      List.zipWith (fun x ms => (x - ms.1) / ms.2) row
        (List.replicate L ((0:ℚ), (1:ℚ))) = row := by
    intro row hr
    rw [zipWith_replicate_right _ _ row L (le_of_eq (h row hr))]
    simp
  calc X.map (fun row => List.zipWith (fun x ms => (x - ms.1) / ms.2) row
        (List.replicate L ((0:ℚ), (1:ℚ))))
      = X.map id := List.map_congr_left (fun row hr => hrow row hr)
    _ = X := List.map_id X

/-- Witness for C9 at the concrete batch `[[5, 7]]` with `L = 2`. -/
theorem c9_normalizer_identity_witness :
    (∀ row ∈ [[(5:ℚ), 7]], row.length = 2) ∧
    scaler_transform (List.replicate 2 0) (List.replicate 2 1)
      [[(5:ℚ), 7]] = [[(5:ℚ), 7]] :=
  ⟨by decide, c9_normalizer_identity 2 [[(5:ℚ), 7]] (by decide)⟩

/-- C10: per-segment predictions take the class as `np.argmax` of the
probability row and the confidence as `np.max` of the same row, so the
confidence is exactly the probability at the predicted class index. -/
theorem c10_argmax_confidence (row : List ℚ) (h : row ≠ []) :
    row[np_argmax row]? = some (np_maxval row) := by
  cases row with
  | nil => exact absurd rfl h
  | cons x xs =>
      have hbase : (x :: xs)[(0 : Nat)]? = some x := by simp
      have hshift : ∀ j : Nat, (x :: xs)[1 + j]? = xs[j]? := by
        intro j
        rw [Nat.add_comm]
        simp
      have hget := argmaxAux_get (x :: xs) xs (0, x) 1 hbase hshift
      have hsnd := argmaxAux_snd xs (0, x) 1
      rw [hsnd] at hget
      simpa [np_argmax, np_maxval] using hget

/-- Witness for C10 at the probability row `[1/4, 1/2, 1/4]`. -/
theorem c10_argmax_confidence_witness :
    ([(1:ℚ)/4, 1/2, 1/4] ≠ []) ∧
    [(1:ℚ)/4, 1/2, 1/4][np_argmax [(1:ℚ)/4, 1/2, 1/4]]? =
      some (np_maxval [(1:ℚ)/4, 1/2, 1/4]) :=
  ⟨by decide, c10_argmax_confidence [(1:ℚ)/4, 1/2, 1/4] (by decide)⟩

set_option maxRecDepth 4000 in
/-- C6: batched classification with batch size 100 makes
`ceil(N/100)` classifier calls on consecutive chunks — full chunks of 100
followed by one chunk of `N mod 100` when the remainder is nonzero — and
reassembles exactly `N` per-segment predictions in input order (the result
equals the row-wise prediction of the whole input); for `N = 237` the
chunk sizes are exactly 100, 100, 37. -/
theorem c6_batched_classification {α : Type} (mdl : α → List ℚ)
    (segs : List α) :
    (batch_chunks 100 segs).length = (segs.length + 99) / 100 ∧
    (batch_chunks 100 segs).map List.length =
      List.replicate (segs.length / 100) 100 ++
        (if segs.length % 100 = 0 then [] else [segs.length % 100]) ∧
    all_predictions mdl 100 segs = segs.map (fun s => np_argmax (mdl s)) ∧
    all_confidences mdl 100 segs = segs.map (fun s => np_maxval (mdl s)) ∧
    (all_predictions mdl 100 segs).length = segs.length ∧
    (batch_chunks 100 (List.range 237)).map List.length = [100, 100, 37] := by
  have h100 : (0 : Nat) < 100 := by omega
  have hpred : all_predictions mdl 100 segs =
      segs.map (fun s => np_argmax (mdl s)) := by
    unfold all_predictions
    have hmm : (batch_chunks 100 segs).map
        (fun b => (b.map mdl).map np_argmax) =
        (batch_chunks 100 segs).map
          (List.map (fun s => np_argmax (mdl s))) := by
      refine List.map_congr_left ?_
      intro b _
      rw [List.map_map]
      rfl
    rw [hmm, ← List.map_flatten, batch_chunks_flatten 100 h100]
  have hconf : all_confidences mdl 100 segs =
      segs.map (fun s => np_maxval (mdl s)) := by
    unfold all_confidences
    have hmm : (batch_chunks 100 segs).map
        (fun b => (b.map mdl).map np_maxval) =
        (batch_chunks 100 segs).map
          (List.map (fun s => np_maxval (mdl s))) := by
      refine List.map_congr_left ?_
      intro b _
      rw [List.map_map]
      rfl
    rw [hmm, ← List.map_flatten, batch_chunks_flatten 100 h100]
  refine ⟨?_, batch_chunks_lengths 100 h100 segs, hpred, hconf, ?_, ?_⟩
  · simp [batch_chunks, batch_starts]
  · rw [hpred, List.length_map]
  · decide

/-- C4 (amended): a signal longer than the filter's padding length but
shorter than `2 * boundary_margin + 1` samples reaches peak detection,
where the boundary filter empties every candidate set, and the pipeline
fails with `NoPeaksError`. -/
theorem c4_short_signal_no_peaks (filt : List ℚ → List ℚ)
    (detector : List ℚ → List Nat) (mean_vec scale_vec : List ℚ)
    (L rate : Nat) (sig : List ℚ)
    (hfilt : ∀ s, (filt s).length = s.length)
    (hlong : butter_padlen < sig.length)
    (hshort : sig.length < 2 * boundary_margin rate + 1) :
    segment_ecg_beats filt detector mean_vec scale_vec sig L rate =
      Except.error EcgError.NoPeaksError ∧
    boundary_filtered (filt sig).length rate (detector (filt sig)) = [] := by
  have hfilter : boundary_filtered (filt sig).length rate
      (detector (filt sig)) = [] := by
    apply List.filter_eq_nil_iff.mpr
    intro p _
    simp only [decide_eq_true_eq, not_and]
    intro hp
    rw [hfilt sig]
    omega
  have h1 : preprocess_ecg filt sig = Except.ok (filt sig) := by
    unfold preprocess_ecg
    rw [if_neg (by omega)]
  have h2 : detect_r_peaks detector (filt sig) rate =
      Except.error EcgError.NoPeaksError := by
    unfold detect_r_peaks
    rw [hfilter]
    rfl
  refine ⟨?_, hfilter⟩
  unfold segment_ecg_beats
  rw [h1, except_bind_ok]
  simp only []
  rw [h2, except_bind_error]

/-- C4 (counterexample): the 10-sample signal is shorter than
`2 * boundary_margin + 1 = 145` at rate 360, yet the pipeline fails at
the earlier filtering stage with `FilterError`, not `NoPeaksError`. -/
theorem c4_counterexample :
    segment_ecg_beats id (fun _ => []) [] [] (List.replicate 10 0) 250 360 =
      Except.error EcgError.FilterError ∧
    (List.replicate 10 (0:ℚ)).length < 2 * boundary_margin 360 + 1 ∧
    EcgError.FilterError ≠ EcgError.NoPeaksError :=
  ⟨rfl, by decide, by decide⟩

/-- Witness for the amended C4 at a concrete 100-sample signal. -/
theorem c4_short_signal_no_peaks_witness :
    butter_padlen < (List.replicate 100 (0:ℚ)).length ∧
    (List.replicate 100 (0:ℚ)).length < 2 * boundary_margin 360 + 1 ∧
    (segment_ecg_beats id (fun _ => [50]) [] [] (List.replicate 100 0) 250 360 =
        Except.error EcgError.NoPeaksError ∧
      boundary_filtered (id (List.replicate 100 (0:ℚ))).length 360
        ((fun _ => [50]) (id (List.replicate 100 (0:ℚ)))) = []) :=
  ⟨by decide, by decide,
    c4_short_signal_no_peaks id (fun _ => [50]) [] [] 250 360
      (List.replicate 100 0) (fun _ => rfl) (by decide) (by decide)⟩

theorem extract_one_pos {α : Type} (sig : List α) (L p : Nat)
    (hL : 2 * (L / 2) = L) (hc : L / 2 ≤ p ∧ p + L / 2 < sig.length) :
    extract_one sig L p = some ((sig.drop (p - L / 2)).take L) := by
  unfold extract_one
  have h1 : (0:ℤ) ≤ (p:ℤ) - ((L / 2 : Nat) : ℤ) := by omega
  have h2 : (p:ℤ) + ((L / 2 : Nat) : ℤ) < (sig.length : ℤ) := by omega
  rw [if_pos ⟨h1, h2⟩]
  have hstart : ((p:ℤ) - ((L / 2 : Nat) : ℤ)).toNat = p - L / 2 := by omega
  have hwide :
      ((p:ℤ) + ((L / 2 : Nat) : ℤ) - ((p:ℤ) - ((L / 2 : Nat) : ℤ))).toNat
        = L := by omega
  rw [hstart, hwide]
  have hseglen : ((sig.drop (p - L / 2)).take L).length = L := by
    rw [List.length_take, List.length_drop]
    exact min_eq_left (by omega)
  rw [if_pos hseglen]

theorem extract_one_neg {α : Type} (sig : List α) (L p : Nat)
    (hc : ¬(L / 2 ≤ p ∧ p + L / 2 < sig.length)) :
    extract_one sig L p = none := by
  unfold extract_one
  have h : ¬((0:ℤ) ≤ (p:ℤ) - ((L / 2 : Nat) : ℤ) ∧
      (p:ℤ) + ((L / 2 : Nat) : ℤ) < (sig.length : ℤ)) := by
    intro hcon
    obtain ⟨h1, h2⟩ := hcon
    exact hc ⟨by omega, by omega⟩
  rw [if_neg h]

theorem extract_characterization {α : Type} (sig : List α) (L : Nat)
    (hL : 2 * (L / 2) = L) :
    ∀ ps : List Nat, extract_heartbeat_segments sig ps L =
      (ps.filter fun p => decide (L / 2 ≤ p ∧ p + L / 2 < sig.length)).map
        (fun p => (sig.drop (p - L / 2)).take L) := by
  intro ps
  induction ps with
  | nil => rfl
  | cons p ps ih =>
      unfold extract_heartbeat_segments at ih ⊢
      by_cases hc : L / 2 ≤ p ∧ p + L / 2 < sig.length
      · rw [List.filterMap_cons_some (extract_one_pos sig L p hL hc)]
        rw [List.filter_cons_of_pos (by simpa using hc), List.map_cons, ih]
      · rw [List.filterMap_cons_none (extract_one_neg sig L p hc)]
        rw [List.filter_cons_of_neg (by simpa using hc), ih]

/-- C7 (amended): for even segment length L, extraction keeps the window
of peak p exactly when `p - L/2 >= 0` and `p + L/2 < len(signal)`
(strictly): a peak whose window ends exactly at the signal end
(`p + L/2 = len`) is rejected by the code's strict boundary check even
though its window lies within bounds; kept windows are the slices
`[p - L/2, p + L/2)` in peak order, and the segment count is at most
`|PeakSet|`. -/
theorem c7_extraction_window (sig : List ℚ) (peaks : List Nat) (L : Nat)
    (hL : 2 * (L / 2) = L) :
    extract_heartbeat_segments sig peaks L =
      (peaks.filter fun p => decide (L / 2 ≤ p ∧ p + L / 2 < sig.length)).map
        (fun p => (sig.drop (p - L / 2)).take L) ∧
    (extract_heartbeat_segments sig peaks L).length ≤ peaks.length := by
  refine ⟨extract_characterization sig L hL peaks, ?_⟩
  rw [extract_characterization sig L hL peaks, List.length_map]
  exact List.length_filter_le _ peaks

set_option maxRecDepth 4000 in
/-- C7 (counterexample): with L = 250 and a 250-sample signal, the peak
p = 125 has `p - L/2 = 0` and `p + L/2 = 250 = len`: its window fills the
signal exactly and has length L, yet the code extracts nothing. -/
theorem c7_counterexample :
    extract_heartbeat_segments (List.replicate 250 (0:ℚ)) [125] 250 = [] ∧
    125 + 250 / 2 = (List.replicate 250 (0:ℚ)).length ∧
    (0 : ℤ) ≤ 125 - 250 / 2 :=
  ⟨rfl, by decide, by decide⟩

/-- Witness for the amended C7 at L = 4 over a 6-sample signal. -/
theorem c7_extraction_window_witness :
    2 * (4 / 2) = 4 ∧
    (extract_heartbeat_segments (List.replicate 6 (0:ℚ)) [0, 2, 3, 5] 4 =
      ([0, 2, 3, 5].filter fun p =>
          decide (4 / 2 ≤ p ∧ p + 4 / 2 < (List.replicate 6 (0:ℚ)).length)).map
        (fun p => ((List.replicate 6 (0:ℚ)).drop (p - 4 / 2)).take 4) ∧
     (extract_heartbeat_segments (List.replicate 6 (0:ℚ))
        [0, 2, 3, 5] 4).length ≤ ([0, 2, 3, 5] : List Nat).length) :=
  ⟨by decide,
   c7_extraction_window (List.replicate 6 (0:ℚ)) [0, 2, 3, 5] 4 (by decide)⟩

/-- C2 (amended): discarding peaks within the boundary margin guarantees
a full window for every remaining peak only when the margin is at least
L/2.  Under `L/2 <= boundary_margin rate`, every filtered peak's window
`[p - L/2, p + L/2)` lies within the signal and the extractor keeps every
filtered peak, so the number of Segments equals the size of the PeakSet.
At the defaults (rate 360, margin 72; L = 250, L/2 = 125) the premise
fails and so does the guarantee (see the counterexample). -/
theorem c2_full_window_guarantee (sig : List ℚ) (cands : List Nat)
    (rate L : Nat) (hL : 2 * (L / 2) = L)
    (hm : L / 2 ≤ boundary_margin rate) :
    (∀ p ∈ boundary_filtered sig.length rate cands,
        L / 2 ≤ p ∧ p + L / 2 < sig.length) ∧
    (extract_heartbeat_segments sig
        (boundary_filtered sig.length rate cands) L).length =
      (boundary_filtered sig.length rate cands).length := by
  have hmem : ∀ p ∈ boundary_filtered sig.length rate cands,
      L / 2 ≤ p ∧ p + L / 2 < sig.length := by
    intro p hp
    unfold boundary_filtered at hp
    have hcond := List.of_mem_filter hp
    rw [decide_eq_true_eq] at hcond
    constructor <;> omega
  refine ⟨hmem, ?_⟩
  unfold extract_heartbeat_segments
  refine List.filterMap_length_eq_length.mpr ?_
  intro p hp
  rw [extract_one_pos sig L p hL (hmem p hp)]
  rfl

set_option maxRecDepth 4000 in
/-- C2 (counterexample): at rate 360 (margin 72) and L = 250, the peak
p = 100 of a 300-sample signal survives the boundary filter, but its
window needs `p >= 125`, so the extractor discards it: the final PeakSet
has one entry while zero segments are extracted. -/
theorem c2_counterexample :
    boundary_filtered (List.replicate 300 (0:ℚ)).length 360 [100] = [100] ∧
    extract_heartbeat_segments (List.replicate 300 (0:ℚ)) [100] 250 = [] ∧
    100 < 250 / 2 :=
  ⟨by decide, rfl, by decide⟩

set_option maxRecDepth 4000 in
/-- Witness for the amended C2 at rate 1000 (margin 200 ≥ 125 = L/2). -/
theorem c2_full_window_guarantee_witness :
    2 * (250 / 2) = 250 ∧ 250 / 2 ≤ boundary_margin 1000 ∧
    ((∀ p ∈ boundary_filtered (List.replicate 600 (0:ℚ)).length 1000 [300],
        250 / 2 ≤ p ∧ p + 250 / 2 < (List.replicate 600 (0:ℚ)).length) ∧
     (extract_heartbeat_segments (List.replicate 600 (0:ℚ))
        (boundary_filtered (List.replicate 600 (0:ℚ)).length 1000 [300])
        250).length =
      (boundary_filtered (List.replicate 600 (0:ℚ)).length 1000
        [300]).length) :=
  ⟨by decide, by decide,
   c2_full_window_guarantee (List.replicate 600 (0:ℚ)) [300] 1000 250
     (by decide) (by decide)⟩

/-- C3 (amended): every PeakSet returned by `detect_r_peaks` satisfies the
boundary-margin invariant, and any minimum-separation `d` holding on the
detector's candidate set is preserved by the boundary filter (the scipy
strategies' `find_peaks` contract provides `d` = the active threshold);
but the repository code enforces no separation itself, so candidates from
the external WFDB detector may reach the PeakSet arbitrarily close
together (see the counterexample). -/
theorem c3_peakset_invariants (detector : List ℚ → List Nat) (sig : List ℚ)
    (rate d : Nat) (peaks : List Nat)
    (hok : detect_r_peaks detector sig rate = Except.ok peaks) :
    (∀ p ∈ peaks,
        boundary_margin rate ≤ p ∧ p + boundary_margin rate < sig.length) ∧
    (List.Pairwise (fun a b => a + d ≤ b) (detector sig) →
      List.Pairwise (fun a b => a + d ≤ b) peaks) := by
  have hpeaks : peaks = boundary_filtered sig.length rate (detector sig) := by
    simp only [detect_r_peaks] at hok
    split at hok
    · cases hok
    · simp only [Except.ok.injEq] at hok
      exact hok.symm
  subst hpeaks
  constructor
  · intro p hp
    unfold boundary_filtered at hp
    have hcond := List.of_mem_filter hp
    rw [decide_eq_true_eq] at hcond
    exact ⟨hcond.1, by omega⟩
  · intro hpw
    unfold boundary_filtered
    exact hpw.sublist (List.filter_sublist _)

set_option maxRecDepth 4000 in
/-- C3 (counterexample): a candidate set `[100, 101]` — as the unconstrained
external WFDB detector may return — passes the boundary filter unchanged on
a 400-sample signal at rate 360, violating both minimum-distance
thresholds (216 and 144). -/
theorem c3_counterexample :
    detect_r_peaks (fun _ => [100, 101]) (List.replicate 400 (0:ℚ)) 360 =
      Except.ok [100, 101] ∧
    ¬(100 + min_distance_relaxed 360 ≤ 101) ∧
    ¬(100 + min_distance_primary 360 ≤ 101) :=
  ⟨rfl, by decide, by decide⟩

set_option maxRecDepth 4000 in
/-- Witness for the amended C3 at a concrete well-separated candidate set. -/
theorem c3_peakset_invariants_witness :
    detect_r_peaks (fun _ => [100, 300]) (List.replicate 400 (0:ℚ)) 360 =
      Except.ok [100, 300] ∧
    ((∀ p ∈ ([100, 300] : List Nat),
        boundary_margin 360 ≤ p ∧
          p + boundary_margin 360 < (List.replicate 400 (0:ℚ)).length) ∧
     (List.Pairwise (fun a b => a + 144 ≤ b)
         ((fun _ => [100, 300]) (List.replicate 400 (0:ℚ))) →
       List.Pairwise (fun a b => a + 144 ≤ b) [100, 300])) :=
  ⟨rfl,
   c3_peakset_invariants (fun _ => [100, 300]) (List.replicate 400 (0:ℚ))
     360 144 [100, 300] rfl⟩

/-- C8: the validator accepts a segment iff its length equals L, it has no
non-finite value, its variance is at least `(1e-6)^2` (i.e. its standard
deviation is at least 1e-6) and its maximum absolute amplitude is at most
100; the output is the accepted subsequence in the original order; and the
pipeline's validation stage succeeds whenever at least one segment is
accepted — rejecting more than half of the input is not a failure. -/
theorem c8_validator (L : Nat) (segs : List (List (Option ℚ))) :
    validate_segments segs L = segs.filter (accept_segment L) ∧
    List.Sublist (validate_segments segs L) segs ∧
    (∀ s : List (Option ℚ), accept_segment L s = true ↔
      (s.length = L ∧ (∀ v ∈ s, v ≠ none) ∧
       (1/1000000 : ℚ) ^ 2 ≤ varianceQ (finiteVals s) ∧
       maxAbsQ (finiteVals s) ≤ 100)) ∧
    (0 < (validate_segments segs L).length →
      validation_stage segs L = Except.ok (validate_segments segs L)) := by
  refine ⟨rfl, List.filter_sublist segs, ?_, ?_⟩
  · intro s
    unfold accept_segment
    constructor
    · intro h
      split_ifs at h with h1 h2 h3 h4
      · refine ⟨not_not.mp h1, ?_, not_lt.mp h3, not_lt.mp h4⟩
        intro v hv hvn
        apply h2
        rw [List.any_eq_true]
        refine ⟨v, hv, ?_⟩
        rw [hvn]
        rfl
    · rintro ⟨e1, e2, e3, e4⟩
      split_ifs with h1 h2 h3 h4
      · exact absurd e1 h1
      · exfalso
        rw [List.any_eq_true] at h2
        obtain ⟨v, hv, hnone⟩ := h2
        rw [Option.isNone_iff_eq_none] at hnone
        exact e2 v hv hnone
      · exact absurd e3 (not_le.mpr h3)
      · exact absurd e4 (not_le.mpr h4)
      · rfl
  · intro h
    have hne : ¬((validate_segments segs L).isEmpty = true) := by
      rw [List.isEmpty_iff]
      intro he
      rw [he] at h
      simp at h
    simp only [validation_stage]
    rw [if_neg hne]

/-- Witness for C8: of three concrete segments, one is accepted (the other
two are rejected — flat and non-finite), so more than half are discarded,
yet the validation stage succeeds. -/
theorem c8_validator_witness :
    0 < (validate_segments
          [[some 1, some 2], [some 0, some 0], [none, some (1:ℚ)]] 2).length ∧
    validation_stage
        [[some 1, some 2], [some 0, some 0], [none, some (1:ℚ)]] 2 =
      Except.ok (validate_segments
        [[some 1, some 2], [some 0, some 0], [none, some (1:ℚ)]] 2) := by
  have hvar1 : varianceQ [(1:ℚ), 2] = 1/4 := by
    simp only [varianceQ, meanQ, List.map_cons, List.map_nil, List.sum_cons,
      List.sum_nil, List.length_cons, List.length_nil]
    norm_num
  have hmax1 : maxAbsQ [(1:ℚ), 2] = 2 := by
    simp only [maxAbsQ, List.map_cons, List.map_nil, List.foldl_cons,
      List.foldl_nil]
    rw [abs_of_nonneg (by norm_num : (0:ℚ) ≤ 1),
        abs_of_nonneg (by norm_num : (0:ℚ) ≤ 2),
        max_eq_right (by norm_num : (0:ℚ) ≤ 1),
        max_eq_right (by norm_num : (1:ℚ) ≤ 2)]
  have hvar0 : varianceQ [(0:ℚ), 0] = 0 := by
    simp only [varianceQ, meanQ, List.map_cons, List.map_nil, List.sum_cons,
      List.sum_nil, List.length_cons, List.length_nil]
    norm_num
  have hacc1 : accept_segment 2 [some 1, some 2] = true := by
    unfold accept_segment
    rw [if_neg (by decide :
          ¬(([some 1, some 2] : List (Option ℚ)).length ≠ 2))]
    rw [if_neg (by decide :
          ¬(([some 1, some 2] : List (Option ℚ)).any
              (fun v => v.isNone) = true))]
    rw [if_neg (by
          rw [show finiteVals [some 1, some 2] = [(1:ℚ), 2] from rfl, hvar1]
          norm_num)]
    rw [if_neg (by
          rw [show finiteVals [some 1, some 2] = [(1:ℚ), 2] from rfl, hmax1]
          norm_num)]
  have hacc2 : accept_segment 2 [some 0, some 0] = false := by
    unfold accept_segment
    rw [if_neg (by decide :
          ¬(([some 0, some 0] : List (Option ℚ)).length ≠ 2))]
    rw [if_neg (by decide :
          ¬(([some 0, some 0] : List (Option ℚ)).any
              (fun v => v.isNone) = true))]
    rw [if_pos (by
          rw [show finiteVals [some 0, some 0] = [(0:ℚ), 0] from rfl, hvar0]
          norm_num)]
  have hacc3 : accept_segment 2 [none, some (1:ℚ)] = false := by
    unfold accept_segment
    rw [if_neg (by decide :
          ¬(([none, some (1:ℚ)] : List (Option ℚ)).length ≠ 2))]
    rw [if_pos (by decide :
          ([none, some (1:ℚ)] : List (Option ℚ)).any
              (fun v => v.isNone) = true)]
  have hval : validate_segments
      [[some 1, some 2], [some 0, some 0], [none, some (1:ℚ)]] 2 =
      [[some 1, some 2]] := by
    unfold validate_segments
    rw [List.filter_cons_of_pos hacc1, List.filter_cons_of_neg (by rw [hacc2]; decide),
        List.filter_cons_of_neg (by rw [hacc3]; decide), List.filter_nil]
  have hpos : 0 < (validate_segments
      [[some 1, some 2], [some 0, some 0], [none, some (1:ℚ)]] 2).length := by
    rw [hval]
    decide
  exact ⟨hpos,
    (c8_validator 2
      [[some 1, some 2], [some 0, some 0], [none, some (1:ℚ)]]).2.2.2 hpos⟩

theorem firstOccsAux_mem : ∀ (l seen : List Nat) (x : Nat),
    x ∈ firstOccsAux seen l ↔ (x ∈ l ∧ x ∉ seen) := by
  intro l
  induction l with
  | nil => intro seen x; simp [firstOccsAux]
  | cons c rest ih =>
      intro seen x
      by_cases hc : c ∈ seen
      · simp only [firstOccsAux, if_pos hc]
        rw [ih seen x]
        constructor
        · rintro ⟨hx, hns⟩
          exact ⟨List.mem_cons_of_mem c hx, hns⟩
        · rintro ⟨hx, hns⟩
          rcases List.mem_cons.mp hx with rfl | hx2
          · exact absurd hc hns
          · exact ⟨hx2, hns⟩
      · simp only [firstOccsAux, if_neg hc]
        rw [List.mem_cons, ih (c :: seen) x]
        constructor
        · rintro (rfl | ⟨hx, hns⟩)
          · exact ⟨List.mem_cons_self _ _, hc⟩
          · exact ⟨List.mem_cons_of_mem c hx,
              fun hxs => hns (List.mem_cons_of_mem c hxs)⟩
        · rintro ⟨hx, hns⟩
          by_cases hxc : x = c
          · exact Or.inl hxc
          · rcases List.mem_cons.mp hx with h | h
            · exact absurd h hxc
            · refine Or.inr ⟨h, ?_⟩
              rw [List.mem_cons]
              rintro (h2 | h2)
              · exact hxc h2
              · exact hns h2

theorem firstOccs_mem (l : List Nat) (x : Nat) :
    x ∈ firstOccs l ↔ x ∈ l := by
  unfold firstOccs
  rw [firstOccsAux_mem]
  simp

theorem firstOccsAux_pairwise_indexOf : ∀ (l seen : List Nat),
    List.Pairwise (fun a b => l.indexOf a < l.indexOf b)
      (firstOccsAux seen l) := by
  intro l
  induction l with
  | nil => intro seen; simp [firstOccsAux]
  | cons c rest ih =>
      intro seen
      by_cases hc : c ∈ seen
      · simp only [firstOccsAux, if_pos hc]
        refine List.Pairwise.imp_of_mem ?_ (ih seen)
        intro a b ha hb hab
        have ha2 := (firstOccsAux_mem rest seen a).mp ha
        have hb2 := (firstOccsAux_mem rest seen b).mp hb
        have hac : a ≠ c := fun h2 => ha2.2 (h2 ▸ hc)
        have hbc : b ≠ c := fun h2 => hb2.2 (h2 ▸ hc)
        rw [List.indexOf_cons_ne rest (Ne.symm hac),
            List.indexOf_cons_ne rest (Ne.symm hbc)]
        omega
      · simp only [firstOccsAux, if_neg hc]
        rw [List.pairwise_cons]
        constructor
        · intro b hb
          have hb2 := (firstOccsAux_mem rest (c :: seen) b).mp hb
          have hbc : b ≠ c := fun h2 => hb2.2 (h2 ▸ List.mem_cons_self c seen)
          rw [List.indexOf_cons_self, List.indexOf_cons_ne rest (Ne.symm hbc)]
          omega
        · refine List.Pairwise.imp_of_mem ?_ (ih (c :: seen))
          intro a b ha hb hab
          have ha2 := (firstOccsAux_mem rest (c :: seen) a).mp ha
          have hb2 := (firstOccsAux_mem rest (c :: seen) b).mp hb
          have hac : a ≠ c := fun h2 => ha2.2 (h2 ▸ List.mem_cons_self c seen)
          have hbc : b ≠ c := fun h2 => hb2.2 (h2 ▸ List.mem_cons_self c seen)
          rw [List.indexOf_cons_ne rest (Ne.symm hac),
              List.indexOf_cons_ne rest (Ne.symm hbc)]
          omega

theorem firstOccs_pairwise_indexOf (l : List Nat) :
    List.Pairwise (fun a b => l.indexOf a < l.indexOf b) (firstOccs l) :=
  firstOccsAux_pairwise_indexOf l []

theorem pyMaxAux_mem : ∀ (l : List (Nat × Nat)) (b : Nat × Nat),
    pyMaxAux b l = b ∨ pyMaxAux b l ∈ l := by
  intro l
  induction l with
  | nil => intro b; exact Or.inl rfl
  | cons kv rest ih =>
      intro b
      simp only [pyMaxAux]
      by_cases h : b.2 < kv.2
      · rw [if_pos h]
        rcases ih kv with heq | hmem
        · refine Or.inr ?_
          rw [heq]
          exact List.mem_cons_self kv rest
        · exact Or.inr (List.mem_cons_of_mem kv hmem)
      · rw [if_neg h]
        rcases ih b with heq | hmem
        · exact Or.inl heq
        · exact Or.inr (List.mem_cons_of_mem kv hmem)

theorem pyMaxAux_ge : ∀ (l : List (Nat × Nat)) (b : Nat × Nat),
    b.2 ≤ (pyMaxAux b l).2 ∧ ∀ x ∈ l, x.2 ≤ (pyMaxAux b l).2 := by
  intro l
  induction l with
  | nil => intro b; exact ⟨le_refl _, fun x hx => absurd hx (List.not_mem_nil x)⟩
  | cons kv rest ih =>
      intro b
      simp only [pyMaxAux]
      by_cases h : b.2 < kv.2
      · rw [if_pos h]
        obtain ⟨h1, h2⟩ := ih kv
        refine ⟨le_trans (le_of_lt h) h1, ?_⟩
        intro x hx
        rcases List.mem_cons.mp hx with rfl | hx2
        · exact h1
        · exact h2 x hx2
      · rw [if_neg h]
        obtain ⟨h1, h2⟩ := ih b
        refine ⟨h1, ?_⟩
        intro x hx
        rcases List.mem_cons.mp hx with rfl | hx2
        · exact le_trans (le_of_not_lt h) h1
        · exact h2 x hx2

theorem pyMaxAux_before : ∀ (l : List (Nat × Nat)) (b : Nat × Nat),
    pyMaxAux b l = b ∨
    ∃ l1 l2, l = l1 ++ (pyMaxAux b l) :: l2 ∧ b.2 < (pyMaxAux b l).2 ∧
      ∀ y ∈ l1, y.2 < (pyMaxAux b l).2 := by
  intro l
  induction l with
  | nil => intro b; exact Or.inl rfl
  | cons kv rest ih =>
      intro b
      simp only [pyMaxAux]
      by_cases h : b.2 < kv.2
      · rw [if_pos h]
        rcases ih kv with heq | ⟨l1, l2, hsplit, hlt, hall⟩
        · right
          refine ⟨[], rest, ?_, ?_, ?_⟩
          · rw [heq, List.nil_append]
          · rw [heq]; exact h
          · intro y hy; exact absurd hy (List.not_mem_nil y)
        · right
          refine ⟨kv :: l1, l2, ?_, lt_trans h hlt, ?_⟩
          · rw [List.cons_append, ← hsplit]
          · intro y hy
            rcases List.mem_cons.mp hy with rfl | hy2
            · exact hlt
            · exact hall y hy2
      · rw [if_neg h]
        rcases ih b with heq | ⟨l1, l2, hsplit, hlt, hall⟩
        · exact Or.inl heq
        · right
          refine ⟨kv :: l1, l2, ?_, hlt, ?_⟩
          · rw [List.cons_append, ← hsplit]
          · intro y hy
            rcases List.mem_cons.mp hy with rfl | hy2
            · omega
            · exact hall y hy2

/-- C1 (amended): for every non-empty prediction sequence the chosen
majority class attains the highest vote count, but ties are broken by
insertion order of the vote counter — the tied class whose FIRST VOTE
occurs earliest in the prediction sequence wins — not by lowest class
index. -/
theorem c1_majority_vote (preds : List Nat) (h : preds ≠ []) :
    ∃ k, pyMajority (class_votes preds) = some k ∧ k ∈ preds ∧
      (∀ c ∈ preds, preds.count c ≤ preds.count k) ∧
      (∀ c ∈ preds, preds.count c = preds.count k →
        preds.indexOf k ≤ preds.indexOf c) := by
  have hfo : firstOccs preds ≠ [] := by
    intro hfo
    have hp0 : ∃ x, x ∈ preds := by
      cases preds with
      | nil => exact absurd rfl h
      | cons a t => exact ⟨a, List.mem_cons_self a t⟩
    obtain ⟨x, hx⟩ := hp0
    have hmem := (firstOccs_mem preds x).mpr hx
    rw [hfo] at hmem
    exact absurd hmem (List.not_mem_nil x)
  have hcvne : class_votes preds ≠ [] := by
    unfold class_votes
    intro hmap
    exact hfo (List.map_eq_nil_iff.mp hmap)
  have hentries : ∀ e ∈ class_votes preds,
      e.2 = preds.count e.1 ∧ e.1 ∈ firstOccs preds := by
    intro e he
    unfold class_votes at he
    obtain ⟨c, hc, rfl⟩ := List.mem_map.mp he
    exact ⟨rfl, hc⟩
  cases hcv : class_votes preds with
  | nil => exact absurd hcv hcvne
  | cons e0 restcv =>
  have hrmem : pyMaxAux e0 restcv ∈ class_votes preds := by
    rw [hcv]
    rcases pyMaxAux_mem restcv e0 with heq | hmem
    · rw [heq]; exact List.mem_cons_self e0 restcv
    · exact List.mem_cons_of_mem e0 hmem
  have hrent := hentries _ hrmem
  refine ⟨(pyMaxAux e0 restcv).1, ?_, ?_, ?_, ?_⟩
  · rfl
  · exact (firstOccs_mem preds _).mp hrent.2
  · intro c hc
    have hcfo : c ∈ firstOccs preds := (firstOccs_mem preds c).mpr hc
    have hcmem : (c, preds.count c) ∈ class_votes preds := by
      unfold class_votes
      exact List.mem_map.mpr ⟨c, hcfo, rfl⟩
    rw [hcv] at hcmem
    have hge := pyMaxAux_ge restcv e0
    rcases List.mem_cons.mp hcmem with heq | hmem
    · calc preds.count c = (c, preds.count c).2 := rfl
        _ = e0.2 := by rw [heq]
        _ ≤ (pyMaxAux e0 restcv).2 := hge.1
        _ = preds.count (pyMaxAux e0 restcv).1 := hrent.1
    · calc preds.count c = (c, preds.count c).2 := rfl
        _ ≤ (pyMaxAux e0 restcv).2 := hge.2 _ hmem
        _ = preds.count (pyMaxAux e0 restcv).1 := hrent.1
  · intro c hc hcount
    by_cases hck : c = (pyMaxAux e0 restcv).1
    · rw [hck]
    have hdecomp : ∃ C1 C2,
        class_votes preds = C1 ++ (pyMaxAux e0 restcv) :: C2 ∧
        ∀ y ∈ C1, y.2 < (pyMaxAux e0 restcv).2 := by
      rcases pyMaxAux_before restcv e0 with heq | ⟨l1, l2, hsplit, hlt, hall⟩
      · refine ⟨[], restcv, ?_, ?_⟩
        · rw [hcv, heq, List.nil_append]
        · intro y hy; exact absurd hy (List.not_mem_nil y)
      · refine ⟨e0 :: l1, l2, ?_, ?_⟩
        · rw [hcv]
          exact congrArg (List.cons e0) hsplit
        · intro y hy
          rcases List.mem_cons.mp hy with rfl | hy2
          · exact hlt
          · exact hall y hy2
    obtain ⟨C1, C2, hsplit, hC1⟩ := hdecomp
    have hcfo : c ∈ firstOccs preds := (firstOccs_mem preds c).mpr hc
    have hcmem : (c, preds.count c) ∈ class_votes preds := by
      unfold class_votes
      exact List.mem_map.mpr ⟨c, hcfo, rfl⟩
    rw [hsplit] at hcmem
    rcases List.mem_append.mp hcmem with hin1 | hin2
    · exfalso
      have hlt2 := hC1 _ hin1
      have h2 : preds.count c < preds.count (pyMaxAux e0 restcv).1 := by
        calc preds.count c = (c, preds.count c).2 := rfl
          _ < (pyMaxAux e0 restcv).2 := hlt2
          _ = preds.count (pyMaxAux e0 restcv).1 := hrent.1
      omega
    rcases List.mem_cons.mp hin2 with heq | hin3
    · exact absurd (congrArg Prod.fst heq) hck
    have hF : firstOccs preds =
        C1.map Prod.fst ++ (pyMaxAux e0 restcv).1 :: C2.map Prod.fst := by
      have hmapfst : (class_votes preds).map Prod.fst = firstOccs preds := by
        unfold class_votes
        rw [List.map_map]
        have hcomp : (Prod.fst ∘ fun c => (c, preds.count c)) = id := rfl
        rw [hcomp, List.map_id]
      rw [← hmapfst, hsplit, List.map_append, List.map_cons]
    have hpw := firstOccs_pairwise_indexOf preds
    rw [hF] at hpw
    have hsub := (List.pairwise_append.mp hpw).2.1
    have hrel := (List.pairwise_cons.mp hsub).1
    have hcin : c ∈ C2.map Prod.fst :=
      List.mem_map.mpr ⟨(c, preds.count c), hin3, rfl⟩
    exact le_of_lt (hrel c hcin)

/-- C1 (counterexample): on the prediction sequence `[2, 1]` classes 1 and
2 tie with one vote each, and the code picks class 2 (first key inserted
into the counter), not the lowest class index 1. -/
theorem c1_counterexample :
    pyMajority (class_votes [2, 1]) = some 2 ∧
    ([2, 1] : List Nat).count 1 = ([2, 1] : List Nat).count 2 ∧
    (1 : Nat) < 2 :=
  ⟨rfl, by decide, by decide⟩

/-- Witness for the amended C1 at the prediction sequence `[2, 2, 3]`. -/
theorem c1_majority_vote_witness :
    (([2, 2, 3] : List Nat) ≠ []) ∧
    (∃ k, pyMajority (class_votes [2, 2, 3]) = some k ∧
      k ∈ ([2, 2, 3] : List Nat) ∧
      (∀ c ∈ ([2, 2, 3] : List Nat),
        ([2, 2, 3] : List Nat).count c ≤ ([2, 2, 3] : List Nat).count k) ∧
      (∀ c ∈ ([2, 2, 3] : List Nat),
        ([2, 2, 3] : List Nat).count c = ([2, 2, 3] : List Nat).count k →
        ([2, 2, 3] : List Nat).indexOf k ≤ ([2, 2, 3] : List Nat).indexOf c)) :=
  ⟨by decide, c1_majority_vote [2, 2, 3] (by decide)⟩

theorem roundHalfEven_sub_le (q : ℚ) : |(roundHalfEven q : ℚ) - q| ≤ 1/2 := by
  have hfr : q - (⌊q⌋ : ℚ) = Int.fract q := rfl
  have hd0 : 0 ≤ q - (⌊q⌋ : ℚ) := by rw [hfr]; exact Int.fract_nonneg q
  have hd1 : q - (⌊q⌋ : ℚ) < 1 := by rw [hfr]; exact Int.fract_lt_one q
  simp only [roundHalfEven]
  split_ifs with h1 h2 h3
  · rw [abs_sub_comm, abs_of_nonneg hd0]
    linarith
  · push_cast
    have hrw : ((⌊q⌋ : ℚ) + 1) - q = 1 - (q - (⌊q⌋ : ℚ)) := by ring
    rw [hrw, abs_of_nonneg (by linarith)]
    linarith
  · rw [abs_sub_comm, abs_of_nonneg hd0]
    linarith
  · push_cast
    have hrw : ((⌊q⌋ : ℚ) + 1) - q = 1 - (q - (⌊q⌋ : ℚ)) := by ring
    rw [hrw, abs_of_nonneg (by linarith)]
    linarith

theorem round_to_sub_le (n : Nat) (q : ℚ) :
    |round_to n q - q| ≤ 1 / (2 * 10 ^ n) := by
  have h10 : (0:ℚ) < 10 ^ n := by positivity
  have key := roundHalfEven_sub_le (q * 10 ^ n)
  unfold round_to
  have hrw : ((roundHalfEven (q * 10 ^ n) : ℤ) : ℚ) / 10 ^ n - q =
      (((roundHalfEven (q * 10 ^ n) : ℤ) : ℚ) - q * 10 ^ n) / 10 ^ n := by
    field_simp
    ring
  rw [hrw, abs_div, abs_of_pos h10]
  rw [div_le_div_iff h10 (by positivity)]
  nlinarith [key, h10]

theorem roundHalfEven_intCast (z : ℤ) : roundHalfEven ((z : ℤ) : ℚ) = z := by
  simp only [roundHalfEven, Int.floor_intCast]
  rw [if_pos (by rw [sub_self]; norm_num)]

theorem round_to_intCast (n : Nat) (z : ℤ) :
    round_to n ((z : ℤ) : ℚ) = ((z : ℤ) : ℚ) := by
  unfold round_to
  have hmul : ((z : ℤ) : ℚ) * 10 ^ n = ((z * 10 ^ n : ℤ) : ℚ) := by
    push_cast
    ring
  rw [hmul, roundHalfEven_intCast]
  push_cast
  have h10 : ((10:ℚ)) ^ n ≠ 0 := by positivity
  field_simp

theorem sum_round_sub_le (f : Nat × Nat → ℚ) :
    ∀ (l : List (Nat × Nat)),
      |(l.map (fun e => round_to 2 (f e))).sum - (l.map f).sum| ≤
        (l.length : ℚ) * (1/200) := by
  intro l
  induction l with
  | nil => simp
  | cons e rest ih =>
      simp only [List.map_cons, List.sum_cons, List.length_cons]
      have h1 : |round_to 2 (f e) - f e| ≤ 1/200 := by
        have h2 := round_to_sub_le 2 (f e)
        norm_num at h2
        exact h2
      have hsplit :
          round_to 2 (f e) + (rest.map (fun x => round_to 2 (f x))).sum -
              (f e + (rest.map f).sum) =
            (round_to 2 (f e) - f e) +
              ((rest.map (fun x => round_to 2 (f x))).sum -
                (rest.map f).sum) := by ring
      rw [hsplit]
      calc |(round_to 2 (f e) - f e) +
            ((rest.map (fun x => round_to 2 (f x))).sum - (rest.map f).sum)|
          ≤ |round_to 2 (f e) - f e| +
            |(rest.map (fun x => round_to 2 (f x))).sum -
              (rest.map f).sum| := abs_add _ _
        _ ≤ 1/200 + (rest.length : ℚ) * (1/200) := add_le_add h1 ih
        _ = ((rest.length : ℚ) + 1) * (1/200) := by ring
        _ = ((rest.length + 1 : Nat) : ℚ) * (1/200) := by push_cast; ring

theorem sum_map_add_nat (f g : Nat → Nat) : ∀ (d : List Nat),
    (d.map (fun c => f c + g c)).sum = (d.map f).sum + (d.map g).sum := by
  intro d
  induction d with
  | nil => simp
  | cons c rest ih =>
      simp only [List.map_cons, List.sum_cons, ih]
      omega

theorem sum_indicator_zero (a : Nat) : ∀ (d : List Nat), a ∉ d →
    (d.map (fun c => if a = c then 1 else 0)).sum = 0 := by
  intro d
  induction d with
  | nil => intro _; rfl
  | cons c rest ih =>
      intro hnot
      simp only [List.map_cons, List.sum_cons]
      rw [if_neg (by
            intro h2
            exact hnot (by rw [h2]; exact List.mem_cons_self c rest)),
        ih (fun h2 => hnot (List.mem_cons_of_mem c h2))]

theorem sum_indicator_one (a : Nat) : ∀ (d : List Nat), d.Nodup → a ∈ d →
    (d.map (fun c => if a = c then 1 else 0)).sum = 1 := by
  intro d
  induction d with
  | nil => intro _ hmem; exact absurd hmem (List.not_mem_nil a)
  | cons c rest ih =>
      intro hnd hmem
      simp only [List.map_cons, List.sum_cons]
      rcases List.mem_cons.mp hmem with rfl | hmem2
      · rw [if_pos rfl, sum_indicator_zero a rest (List.nodup_cons.mp hnd).1]
      · have hac : a ≠ c := by
          intro h2
          apply (List.nodup_cons.mp hnd).1
          rw [← h2]
          exact hmem2
        rw [if_neg hac, ih (List.nodup_cons.mp hnd).2 hmem2]

theorem sum_count_nodup : ∀ (l d : List Nat), d.Nodup →
    (∀ x ∈ l, x ∈ d) → (d.map (fun c => l.count c)).sum = l.length := by
  intro l
  induction l with
  | nil => intro d _ _; simp
  | cons a t ih =>
      intro d hnd hcov
      have hone : ∀ c : Nat,
          (a :: t).count c = t.count c + (if a = c then 1 else 0) := by
        intro c
        rw [List.count_cons]
        congr 1
        simp [beq_iff_eq]
      have hmapeq : d.map (fun c => (a :: t).count c) =
          d.map (fun c => t.count c + (if a = c then 1 else 0)) :=
        List.map_congr_left (fun c _ => hone c)
      rw [hmapeq, sum_map_add_nat]
      rw [ih d hnd (fun x hx => hcov x (List.mem_cons_of_mem a hx))]
      rw [sum_indicator_one a d hnd (hcov a (List.mem_cons_self a t))]
      simp

theorem firstOccsAux_nodup : ∀ (l seen : List Nat),
    (firstOccsAux seen l).Nodup := by
  intro l
  induction l with
  | nil => intro seen; simp [firstOccsAux]
  | cons c rest ih =>
      intro seen
      by_cases hc : c ∈ seen
      · simp only [firstOccsAux, if_pos hc]
        exact ih seen
      · simp only [firstOccsAux, if_neg hc]
        rw [List.nodup_cons]
        refine ⟨?_, ih (c :: seen)⟩
        intro hmem
        have h2 := (firstOccsAux_mem rest (c :: seen) c).mp hmem
        exact h2.2 (List.mem_cons_self c seen)

theorem firstOccs_nodup (l : List Nat) : (firstOccs l).Nodup :=
  firstOccsAux_nodup l []

theorem firstOccsAux_all_seen : ∀ (l seen : List Nat),
    (∀ x ∈ l, x ∈ seen) → firstOccsAux seen l = [] := by
  intro l
  induction l with
  | nil => intro seen _; rfl
  | cons c rest ih =>
      intro seen hall
      have hc : c ∈ seen := hall c (List.mem_cons_self c rest)
      simp only [firstOccsAux, if_pos hc]
      exact ih seen (fun x hx => hall x (List.mem_cons_of_mem c hx))

theorem sum_map_cast (f : Nat → Nat) : ∀ (d : List Nat),
    (d.map (fun c => ((f c : Nat) : ℚ))).sum = (((d.map f).sum : Nat) : ℚ) := by
  intro d
  induction d with
  | nil => simp
  | cons c rest ih =>
      simp only [List.map_cons, List.sum_cons, ih]
      push_cast
      ring

theorem firstOccs_const (l : List Nat) (c : Nat) (hne : l ≠ [])
    (hall : ∀ x ∈ l, x = c) : firstOccs l = [c] := by
  cases l with
  | nil => exact absurd rfl hne
  | cons a t =>
      have ha : a = c := hall a (List.mem_cons_self a t)
      subst ha
      unfold firstOccs
      simp only [firstOccsAux, if_neg (List.not_mem_nil a)]
      refine congrArg (List.cons a) ?_
      apply firstOccsAux_all_seen
      intro x hx
      rw [hall x (List.mem_cons_of_mem a hx)]
      exact List.mem_cons_self a []

/-- C5: for every non-empty prediction sequence, each voted class gets
percentage `round(100 * count / total, 2)` and the percentages sum to 100
within rounding tolerance (at most 1/200 per voted class); if all segments
vote for one class, that class's percentage is exactly 100.0 and the
overall confidence (`majority_confidence`, app.py:240-242) equals the mean
of the confidence values of that class's segments. -/
theorem c5_aggregator (preds : List (Nat × ℚ)) (h : preds ≠ []) :
    |((segment_distribution preds).map (fun e => e.2.2.1)).sum - 100| ≤
      ((segment_distribution preds).length : ℚ) * (1/200) ∧
    ∀ c : Nat, (∀ p ∈ preds, p.1 = c) →
      segment_distribution preds =
        [(c, preds.length, 100,
          round_to 4 (meanQ (preds.map (fun p => p.2))))] ∧
      majority_confidence preds = meanQ (preds.map (fun p => p.2)) := by
  have hN : preds.length ≠ 0 := by
    intro h0
    exact h (List.length_eq_zero.mp h0)
  have hNQ : ((preds.length : ℚ)) ≠ 0 := by
    exact_mod_cast hN
  constructor
  · have hlen : (preds.map (fun p => p.1)).length = preds.length :=
      List.length_map _ _
    have hpct : (segment_distribution preds).map (fun e => e.2.2.1) =
        (class_votes (preds.map (fun p => p.1))).map
          (fun cv => round_to 2 (((cv.2 : ℚ) / (preds.length : ℚ)) * 100)) := by
      unfold segment_distribution
      rw [List.map_map]
      refine List.map_congr_left ?_
      intro cv _
      simp only [Function.comp]
      unfold vote_percentage
      rw [if_neg hN]
    have hexact : ((class_votes (preds.map (fun p => p.1))).map
        (fun cv => ((cv.2 : ℚ) / (preds.length : ℚ)) * 100)).sum = 100 := by
      have h1 : (class_votes (preds.map (fun p => p.1))).map
            (fun cv => ((cv.2 : ℚ) / (preds.length : ℚ)) * 100) =
          (class_votes (preds.map (fun p => p.1))).map
            (fun cv => (cv.2 : ℚ) * (100 / (preds.length : ℚ))) := by
        refine List.map_congr_left ?_
        intro cv _
        ring
      rw [h1, List.sum_map_mul_right]
      have h2 : (class_votes (preds.map (fun p => p.1))).map
            (fun cv => (cv.2 : ℚ)) =
          (firstOccs (preds.map (fun p => p.1))).map
            (fun c => (((preds.map (fun p => p.1)).count c : Nat) : ℚ)) := by
        unfold class_votes
        rw [List.map_map]
        rfl
      rw [h2, sum_map_cast]
      rw [sum_count_nodup (preds.map (fun p => p.1))
            (firstOccs (preds.map (fun p => p.1)))
            (firstOccs_nodup _)
            (fun x hx => (firstOccs_mem _ x).mpr hx)]
      rw [hlen]
      field_simp
    rw [hpct]
    have hbound := sum_round_sub_le
      (fun cv => ((cv.2 : ℚ) / (preds.length : ℚ)) * 100)
      (class_votes (preds.map (fun p => p.1)))
    rw [hexact] at hbound
    have hlen2 : (segment_distribution preds).length =
        (class_votes (preds.map (fun p => p.1))).length := by
      unfold segment_distribution
      rw [List.length_map]
    rw [hlen2]
    exact hbound
  · intro c hall
    have hclsall : ∀ x ∈ preds.map (fun p => p.1), x = c := by
      intro x hx
      obtain ⟨p, hp, rfl⟩ := List.mem_map.mp hx
      exact hall p hp
    have hclsne : preds.map (fun p => p.1) ≠ [] := by
      intro h0
      exact h (List.map_eq_nil_iff.mp h0)
    have hfo : firstOccs (preds.map (fun p => p.1)) = [c] :=
      firstOccs_const _ c hclsne hclsall
    have hcount : (preds.map (fun p => p.1)).count c = preds.length := by
      rw [List.count_eq_length.mpr (fun b hb => (hclsall b hb).symm)]
      exact List.length_map _ _
    have hcv2 : class_votes (preds.map (fun p => p.1)) =
        [(c, preds.length)] := by
      unfold class_votes
      rw [hfo, List.map_cons, List.map_nil, hcount]
    have hconfs : confsOf preds c = preds.map (fun p => p.2) := by
      unfold confsOf
      rw [List.filter_eq_self.mpr (fun p hp => decide_eq_true (hall p hp))]
    have hpct100 : vote_percentage preds.length preds.length = 100 := by
      unfold vote_percentage
      rw [if_neg hN, div_self hNQ, one_mul]
      rw [show (100 : ℚ) = ((100 : ℤ) : ℚ) by norm_num]
      exact round_to_intCast 2 100
    constructor
    · unfold segment_distribution
      rw [hcv2, List.map_cons, List.map_nil]
      rw [hpct100, hconfs]
    · unfold majority_confidence
      rw [hcv2]
      simp only [pyMajority, pyMaxAux]
      rw [hconfs]

/-- Witness for C5 at the single-class prediction list `[(0, 1/2), (0, 1/4)]`. -/
theorem c5_aggregator_witness :
    (([(0, (1:ℚ)/2), (0, 1/4)] : List (Nat × ℚ)) ≠ []) ∧
    (|((segment_distribution [(0, (1:ℚ)/2), (0, 1/4)]).map
        (fun e => e.2.2.1)).sum - 100| ≤
      ((segment_distribution [(0, (1:ℚ)/2), (0, 1/4)]).length : ℚ) *
        (1/200) ∧
    ∀ c : Nat, (∀ p ∈ ([(0, (1:ℚ)/2), (0, 1/4)] : List (Nat × ℚ)), p.1 = c) →
      segment_distribution [(0, (1:ℚ)/2), (0, 1/4)] =
        [(c, ([(0, (1:ℚ)/2), (0, 1/4)] : List (Nat × ℚ)).length, 100,
          round_to 4 (meanQ (([(0, (1:ℚ)/2), (0, 1/4)] : List (Nat × ℚ)).map
            (fun p => p.2))))] ∧
      majority_confidence [(0, (1:ℚ)/2), (0, 1/4)] =
        meanQ (([(0, (1:ℚ)/2), (0, 1/4)] : List (Nat × ℚ)).map
          (fun p => p.2))) :=
  ⟨by decide, c5_aggregator [(0, (1:ℚ)/2), (0, 1/4)] (by decide)⟩
